import Mathlib

/-!
A verification development for the DevBlog reporting script
(`wordpress-rest-api-fetcher.js`).  The script's functions are embedded
shallowly: JavaScript strings become `String`/`List Char`, JavaScript
numbers (which may be `NaN` after `parseInt`) become `JsNum`, the mutable
`viewsData` object becomes an insertion-ordered association list, the
network call becomes an oracle function passed as an argument, and the
in-place array sort of the renderer is modelled by returning the final
array state alongside the rendered text.
-/

namespace DevBlog

/-- One path segment matches the year test of `normalizeUrl`: exactly four
digits (the JS test of four digit characters, anchored). -/
def isYear (p : List Char) : Bool :=
  p.length == 4 && p.all Char.isDigit

/-- One path segment matches the month/day test of `normalizeUrl`: exactly
one or two digits. -/
def isMonthDay (p : List Char) : Bool :=
  (p.length == 1 || p.length == 2) && p.all Char.isDigit

/-- JS `String.prototype.split` with separator `'/'` (empty segments are
kept; the empty string yields one empty segment). -/
def splitSlash : List Char → List (List Char)
  | [] => [[]]
  | c :: cs =>
    match splitSlash cs with
    | [] => [[]]
    | p :: ps => if c = '/' then [] :: p :: ps else (c :: p) :: ps

/-- JS `Array.prototype.join` with separator `'/'`. -/
def joinSlash : List (List Char) → List Char
  | [] => []
  | [p] => p
  | p :: q :: ps => p ++ '/' :: joinSlash (q :: ps)

/-- JS `s.replace` with an end-anchored slash pattern: drop one trailing
slash when present. -/
def stripTrailSlash (l : List Char) : List Char :=
  if l.getLast? = some '/' then l.dropLast else l

/-- The segment-scanning loop of `normalizeUrl` (lines 38-56 of the
source).  A four-digit segment is pushed; if a one-or-two-digit segment
follows it is pushed as the month and a further one-or-two-digit segment
is skipped as the day; when no month follows, the loop body pushes the
four-digit segment and then falls through to the unconditional push, so
the segment appears twice. -/
def normParts : List (List Char) → List (List Char)
  | [] => []
  | [p] => if isYear p then [p, p] else [p]
  | [p, m] =>
    if isYear p then
      if isMonthDay m then [p, m]
      else p :: p :: normParts [m]
    else p :: normParts [m]
  | p :: m :: d :: rest3 =>
    if isYear p then
      if isMonthDay m then
        if isMonthDay d then p :: m :: normParts rest3
        else p :: m :: normParts (d :: rest3)
      else p :: p :: normParts (m :: d :: rest3)
    else p :: normParts (m :: d :: rest3)

/-- `normalizeUrl` (lines 33-59 of the source): lowercase, strip one
trailing slash, split on `'/'`, scan segments, and rejoin. -/
def normalizeUrl (url : String) : String :=
  ⟨joinSlash (normParts (splitSlash (stripTrailSlash (url.data.map Char.toLower))))⟩

/-- A JavaScript number as produced by `parseInt`: either `NaN` or an
integer. -/
inductive JsNum where
  | nan : JsNum
  | int : Int → JsNum
deriving DecidableEq, Repr

/-- JS `parseInt(s, 10)`: skip leading whitespace, read an optional sign,
then the longest prefix of decimal digits; `NaN` when that prefix is
empty.  It never throws. -/
def jsParseInt (s : String) : JsNum :=
  let l := s.data.dropWhile (fun c => c == ' ' || c == '\t' || c == '\n' || c == '\r')
  let signAndDigits : Int × List Char :=
    match l with
    | '-' :: t => (-1, t)
    | '+' :: t => (1, t)
    | t => (1, t)
  let ds := signAndDigits.2.takeWhile Char.isDigit
  if ds.isEmpty then .nan
  else .int (signAndDigits.1 * (ds.foldl (fun a c => a * 10 + (c.toNat - 48)) 0 : Nat))

/-- JS `s.replace` with the anchored-quote pattern of `csvToJson`: remove
one leading and one trailing double-quote character, each when present. -/
def stripQuotes (s : String) : String :=
  let l1 : List Char :=
    match s.data with
    | '"' :: t => t
    | t => t
  if l1.getLast? = some '"' then ⟨l1.dropLast⟩ else ⟨l1⟩

/-- The `cleanUrl` computation of `csvToJson` (line 78): strip quotes,
then strip one trailing slash. -/
def cleanUrl (s : String) : String :=
  ⟨stripTrailSlash (stripQuotes s).data⟩

/-- One CSV-derived record: `{title, views}` (the spec's ViewRecord minus
its key). -/
structure ViewRec where
  title : String
  views : JsNum
deriving DecidableEq, Repr

/-- Assignment to a JS object property: overwrite in place when the key
exists (keys keep their first-insertion position), append otherwise. -/
def objInsert (m : List (String × ViewRec)) (k : String) (v : ViewRec) :
    List (String × ViewRec) :=
  if m.any (fun p => p.1 == k) then
    m.map (fun p => if p.1 == k then (k, v) else p)
  else m ++ [(k, v)]

/-- The result of `csvToJson`: the `viewsData` object plus the two
counters. -/
structure CsvResult where
  data : List (String × ViewRec)
  processed : Nat
  skipped : Nat
deriving DecidableEq, Repr

/-- One iteration of the `csvToJson` row loop (lines 76-88).  With at
least three fields the row is stored and counted as processed (JS
`parseInt` returns `NaN` rather than throwing, so the `catch` is never
reached by a malformed views value); with fewer than three fields the
`url.replace` call throws on `undefined` and the row is counted as
skipped. -/
def csvStep (acc : CsvResult) (r : List String) : CsvResult :=
  match r with
  | title :: views :: url :: _ =>
    { acc with
      data := objInsert acc.data (cleanUrl url) ⟨stripQuotes title, jsParseInt views⟩
      processed := acc.processed + 1 }
  | _ => { acc with skipped := acc.skipped + 1 }

/-- `csvToJson` (lines 66-92), taking the row list produced by the
external CSV parser. -/
def csvToJson (records : List (List String)) : CsvResult :=
  records.foldl csvStep ⟨[], 0, 0⟩

/-- One item of a REST API response, with the fields the script reads:
`id`, `title.rendered`, `date`, the optional embedded author name, and
`link`. -/
structure ApiPost where
  id : Int
  title : String
  date : String
  author : Option String
  link : String
deriving DecidableEq, Repr

/-- One row of the report (the script's formatted post object). -/
structure ContentEntry where
  id : Int
  title : String
  publication_date : String
  author : String
  url : String
  type : String
  views : JsNum
deriving DecidableEq, Repr

/-- `new Date(d).toISOString().split('T')[0]` for a UTC ISO-8601 input:
the part of the string before the first `'T'`. -/
def isoDateOnly (s : String) : String :=
  ⟨s.data.takeWhile (fun c => c != 'T')⟩

/-- The body of the per-post loop of `fetchWordPressPosts` (lines
126-145): normalize the post link, search the `viewsData` keys in order
for one with the same normalized form, and build the formatted entry,
with views 0 when no key matches. -/
def mkEntry (viewsData : List (String × ViewRec)) (postType : String)
    (post : ApiPost) : ContentEntry :=
  let normalizedPostUrl := normalizeUrl post.link
  let matched := viewsData.find? (fun p => normalizeUrl p.1 == normalizedPostUrl)
  { id := post.id
    title := post.title
    publication_date := isoDateOnly post.date
    author := post.author.getD "Unknown"
    url := post.link
    type := postType
    views := match matched with
      | some p => p.2.views
      | none => .int 0 }

/-- `fetchWordPressPosts` (lines 99-152).  The network call is an oracle
`api` from post type to either an error message (a thrown error caught by
the `catch`, which only logs) or the response's post list. -/
def fetchWordPressPosts (postTypes : List String)
    (viewsData : List (String × ViewRec))
    (api : String → Except String (List ApiPost)) : List ContentEntry :=
  postTypes.foldl (fun allPosts postType =>
    match api postType with
    | .ok posts => allPosts ++ posts.map (mkEntry viewsData postType)
    | .error _ => allPosts) []

/-- The title escaping of `generateMarkdownOutput` (line 175): replace
every pipe character by its HTML entity. -/
def escTitle (t : String) : String :=
  ⟨(t.data.map (fun c => if c = '|' then "&#124;".data else [c])).flatten⟩

/-- How a `ContentEntry` prints in a JS template literal: `NaN` for the
not-a-number case, decimal otherwise. -/
def jsNumToString : JsNum → String
  | .nan => "NaN"
  | .int n => toString n

/-- One table row of the report (line 177). -/
def postRow (post : ContentEntry) : String :=
  "| " ++ post.publication_date ++ " | [" ++ escTitle post.title ++ "](" ++
    post.url ++ ") | " ++ post.author ++ " | " ++ post.type ++ " | " ++
    jsNumToString post.views ++ " | " ++ toString post.id ++ " |"

/-- The fixed header lines of the report (lines 161-167). -/
def headerLines (inputDate : String) : List String :=
  ["# Dev Blog News",
   "## Posts Published After " ++ inputDate,
   "",
   "| Date | Title | Author | Type | Views | Post ID |",
   "|------|-------|--------|------|-------|----------|"]

/-- The sort comparator of `generateMarkdownOutput` (lines 170-172):
`a.publication_date.localeCompare(b.publication_date)`, which on the
ASCII ISO-date strings involved is lexicographic string comparison. -/
def entryLe (a b : ContentEntry) : Prop :=
  String.le a.publication_date b.publication_date

instance : DecidableRel entryLe :=
  fun a b => by unfold entryLe; exact String.decLE _ _

instance : IsTotal ContentEntry entryLe := by
  constructor
  intro a b
  by_cases h : entryLe a b
  · left
    exact h
  · right
    unfold entryLe String.le at h ⊢
    have hba := not_not.mp h
    intro h2
    exact String.lt_irrefl _ (String.lt_trans hba h2)

instance : IsTrans ContentEntry entryLe := by
  have key : ∀ x y z : String, String.le x y → String.le y z → String.le x z := by
    intro x y z hxy hyz
    by_cases hzy : String.le z y
    · unfold String.le at *
      cases String.lt_antisymm hzy hyz
      exact hxy
    · unfold String.le at *
      have h := not_not.mp hzy
      intro hzx
      exact hxy (String.lt_trans h hzx)
  exact ⟨fun a b c hab hbc => key _ _ _ hab hbc⟩

/-- `generateMarkdownOutput` (lines 160-182).  JS `Array.prototype.sort`
is required to sort stably with respect to the comparator; it is modelled
by a stable sort with respect to `entryLe`.  The sort is in place, so the
mutation of the argument array is made explicit by also returning the
sorted array, the state of the caller's array after the call. -/
def generateMarkdownOutput (posts : List ContentEntry) (inputDate : String) :
    String × List ContentEntry :=
  let sortedPosts := List.insertionSort entryLe posts
  (String.intercalate "\n" (headerLines inputDate ++ sortedPosts.map postRow),
   sortedPosts)

/-- The characters kept by the filename sanitizer of `main` (line 227):
ASCII letters (the regex is case-insensitive), digits, hyphen,
underscore. -/
def filenameKeep (c : Char) : Bool :=
  (c ≥ 'a' && c ≤ 'z') || (c ≥ 'A' && c ≤ 'Z') || (c ≥ '0' && c ≤ '9') ||
    c == '-' || c == '_'

/-- `safeFilename` of `main` (lines 226-227): prefix the date argument
(`'all'` when the argument is absent or empty, due to JS `||` on the
falsy empty string) and drop every disallowed character. -/
def safeFilename (dateInput : String) : String :=
  ⟨("devblognews-" ++ (if dateInput = "" then "all" else dateInput)).data.filter
    filenameKeep⟩

/-- The name of the written report file (line 229): `safeFilename` plus
the `.md` extension. -/
def reportFilename (dateInput : String) : String :=
  safeFilename dateInput ++ ".md"

/-- One step of the reference fold for the last-occurrence-wins property:
keep the record of the current row when it has at least three fields and
its cleaned URL is `k`, otherwise keep the accumulator. -/
def lastStep (k : String) (acc : Option ViewRec) (r : List String) :
    Option ViewRec :=
  match r with
  | title :: views :: url :: _ =>
    if cleanUrl url = k then some ⟨stripQuotes title, jsParseInt views⟩ else acc
  | _ => acc

/-- The record built from the final row of `records` whose cleaned URL is
`k` (none when no such row exists): the value the last-occurrence-wins
property says the mapping holds at `k`. -/
def lastRowFor (records : List (List String)) (k : String) : Option ViewRec :=
  records.foldl (lastStep k) none

/-! Concrete fixtures used by witnesses and concrete-instance theorems. -/

/-- The views mapping of the spec's join scenario: one record, keyed by a
day-less URL. -/
def wVd : List (String × ViewRec) :=
  [("https://developer.wordpress.org/news/2024/12/bridging-the-gap-hybrid-themes",
    ⟨"Bridging the gap", .int 1975⟩)]

/-- The API post of the spec's join scenario, whose link contains the day
segment. -/
def wPost : ApiPost :=
  ⟨10, "Bridging the gap", "2024-12-03T10:00:00", some "Ann",
   "https://developer.wordpress.org/news/2024/12/03/bridging-the-gap-hybrid-themes/"⟩

/-- A network oracle that succeeds for the category of `wPost` and fails
for every other category. -/
def wApi : String → Except String (List ApiPost) :=
  fun pt => if pt = "posts" then .ok [wPost] else .error "network error"

/-- The entry the fetcher builds from `wPost`. -/
def wEntry : ContentEntry :=
  mkEntry wVd "posts" wPost

/-- First fixture entry for the sort claims (first of the two tied
2024-11-05 dates). -/
def cEntryA : ContentEntry :=
  ⟨1, "Alpha", "2024-11-05", "Ann", "https://x.com/a", "posts", .int 5⟩

/-- Second fixture entry for the sort claims (the earlier 2024-10-10
date). -/
def cEntryB : ContentEntry :=
  ⟨2, "Beta", "2024-10-10", "Bob", "https://x.com/b", "snippets", .int 7⟩

/-- Third fixture entry for the sort claims (second of the two tied
2024-11-05 dates). -/
def cEntryC : ContentEntry :=
  ⟨3, "Gamma", "2024-11-05", "Cal", "https://x.com/c", "posts", .nan⟩

/-! ### Properties of the URL normalizer -/

theorem splitSlash_cons_eq (c : Char) (cs p : List Char) (ps : List (List Char))
    (h : splitSlash cs = p :: ps) :
    splitSlash (c :: cs) = if c = '/' then [] :: p :: ps else (c :: p) :: ps := by
  simp only [splitSlash, h]

theorem splitSlash_shape : ∀ (l : List Char), ∃ p ps, splitSlash l = p :: ps
  | [] => ⟨[], [], rfl⟩
  | c :: cs => by
    obtain ⟨p, ps, h⟩ := splitSlash_shape cs
    rw [splitSlash_cons_eq c cs p ps h]
    by_cases hc : c = '/'
    · exact ⟨[], p :: ps, by rw [if_pos hc]⟩
    · exact ⟨c :: p, ps, by rw [if_neg hc]⟩

theorem joinSlash_cons_cons (c : Char) (p : List Char) (ps : List (List Char)) :
    joinSlash ((c :: p) :: ps) = c :: joinSlash (p :: ps) := by
  cases ps <;> simp [joinSlash]

/-- Joining the segments of a split recovers the original character
list. -/
theorem joinSlash_splitSlash : ∀ (l : List Char), joinSlash (splitSlash l) = l
  | [] => rfl
  | c :: cs => by
    obtain ⟨p, ps, h⟩ := splitSlash_shape cs
    have ih := joinSlash_splitSlash cs
    rw [h] at ih
    rw [splitSlash_cons_eq c cs p ps h]
    by_cases hc : c = '/'
    · rw [if_pos hc, hc]
      show '/' :: joinSlash (p :: ps) = '/' :: cs
      rw [ih]
    · rw [if_neg hc, joinSlash_cons_cons, ih]

theorem normParts_noyear (p : List Char) (rest : List (List Char))
    (hy : isYear p = false) : normParts (p :: rest) = p :: normParts rest := by
  rcases rest with _ | ⟨m, _ | ⟨d, r⟩⟩ <;> simp [normParts, hy]

theorem normParts_year_nomonth (p m : List Char) (rest2 : List (List Char))
    (hy : isYear p = true) (hm : isMonthDay m = false) :
    normParts (p :: m :: rest2) = p :: p :: normParts (m :: rest2) := by
  rcases rest2 with _ | ⟨d, r⟩ <;> simp [normParts, hy, hm]

theorem normParts_year_month_day (p m d : List Char) (rest3 : List (List Char))
    (hy : isYear p = true) (hm : isMonthDay m = true) (hd : isMonthDay d = true) :
    normParts (p :: m :: d :: rest3) = p :: m :: normParts rest3 := by
  simp [normParts, hy, hm, hd]

theorem normParts_year_month_noday (p m d : List Char) (rest3 : List (List Char))
    (hy : isYear p = true) (hm : isMonthDay m = true) (hd : isMonthDay d = false) :
    normParts (p :: m :: d :: rest3) = p :: m :: normParts (d :: rest3) := by
  simp [normParts, hy, hm, hd]

/-- A segment list with no four-digit segment passes through the scan
unchanged. -/
theorem normParts_eq_self : ∀ (l : List (List Char)),
    (∀ p ∈ l, isYear p = false) → normParts l = l
  | [], _ => rfl
  | p :: rest, h => by
    rw [normParts_noyear p rest (h p (List.mem_cons_self p rest)),
      normParts_eq_self rest (fun q hq => h q (List.mem_cons_of_mem p hq))]

theorem toLower_toLower (c : Char) : c.toLower.toLower = c.toLower := by
  simp only [Char.toLower]
  by_cases h : c.toNat ≥ 65 ∧ c.toNat ≤ 90
  · rw [if_pos h]
    have hv : Nat.isValidChar (c.toNat + 32) := Or.inl (by omega)
    have ht : (Char.ofNat (c.toNat + 32)).toNat = c.toNat + 32 := by
      rw [Char.ofNat, dif_pos hv]
      rfl
    rw [ht, if_neg (by omega)]
  · rw [if_neg h, if_neg h]

theorem map_toLower_idem (l : List Char) :
    (l.map Char.toLower).map Char.toLower = l.map Char.toLower := by
  rw [List.map_map]
  apply List.map_congr_left
  intro a _
  exact toLower_toLower a

/-- C1, counterexample: `normalizeUrl` is not idempotent.  A four-digit
segment with no following one-or-two-digit segment is emitted twice by
the scan, so each application of `normalizeUrl` doubles it. -/
theorem normalizeUrl_not_idempotent :
    normalizeUrl (normalizeUrl "https://x.com/2024") ≠
      normalizeUrl "https://x.com/2024" := by decide

/-- C1 (amended): `normalizeUrl` is idempotent on every URL whose
lowercased character list does not end with a slash and has no path
segment consisting of exactly four digits (so no date folding and no
double emission occurs). -/
theorem normalizeUrl_idem_of_no_year (u : String)
    (h1 : (u.data.map Char.toLower).getLast? ≠ some '/')
    (h2 : ∀ p ∈ splitSlash (u.data.map Char.toLower), isYear p = false) :
    normalizeUrl (normalizeUrl u) = normalizeUrl u := by
  have hstrip : stripTrailSlash (u.data.map Char.toLower) = u.data.map Char.toLower := by
    unfold stripTrailSlash
    rw [if_neg h1]
  have hl : normalizeUrl u = ⟨u.data.map Char.toLower⟩ := by
    unfold normalizeUrl
    rw [hstrip, normParts_eq_self _ h2, joinSlash_splitSlash]
  rw [hl]
  show normalizeUrl ⟨u.data.map Char.toLower⟩ = String.mk (u.data.map Char.toLower)
  unfold normalizeUrl
  show String.mk (joinSlash (normParts (splitSlash (stripTrailSlash
    ((u.data.map Char.toLower).map Char.toLower))))) = _
  rw [map_toLower_idem, hstrip, normParts_eq_self _ h2, joinSlash_splitSlash]

/-- Witness for the amended C1 at a concrete URL with uppercase letters
and no date segments. -/
theorem normalizeUrl_idem_of_no_year_witness :
    normalizeUrl (normalizeUrl "https://x.com/Hello-World") =
      normalizeUrl "https://x.com/Hello-World" :=
  normalizeUrl_idem_of_no_year "https://x.com/Hello-World" (by decide) (by decide)

theorem isYear_not_isMonthDay {p : List Char} (hy : isYear p = true) :
    isMonthDay p = false := by
  simp only [isYear, Bool.and_eq_true, beq_iff_eq] at hy
  simp [isMonthDay, hy.1]

/-- The scan of a segment list headed by a four-digit segment is not
affected by segments placed in front: the prefix is scanned the same way
whichever of two year-headed suffixes follows. -/
theorem normParts_append_congr (y : List Char) (hy : isYear y = true)
    (t t' : List (List Char)) (h : normParts (y :: t) = normParts (y :: t')) :
    ∀ (pre : List (List Char)),
      normParts (pre ++ y :: t) = normParts (pre ++ y :: t')
  | [] => h
  | [p] => by
    simp only [List.cons_append, List.nil_append]
    by_cases hp : isYear p = true
    · rw [normParts_year_nomonth p y t hp (isYear_not_isMonthDay hy),
        normParts_year_nomonth p y t' hp (isYear_not_isMonthDay hy), h]
    · have hp' : isYear p = false := by simpa using hp
      rw [normParts_noyear p _ hp', normParts_noyear p _ hp', h]
  | [p, m] => by
    have ih := normParts_append_congr y hy t t' h [m]
    simp only [List.cons_append, List.nil_append] at ih ⊢
    by_cases hp : isYear p = true
    · by_cases hm : isMonthDay m = true
      · rw [normParts_year_month_noday p m y t hp hm (isYear_not_isMonthDay hy),
          normParts_year_month_noday p m y t' hp hm (isYear_not_isMonthDay hy), h]
      · have hm' : isMonthDay m = false := by simpa using hm
        rw [normParts_year_nomonth p m _ hp hm',
          normParts_year_nomonth p m _ hp hm', ih]
    · have hp' : isYear p = false := by simpa using hp
      rw [normParts_noyear p _ hp', normParts_noyear p _ hp', ih]
  | p :: m :: d :: pre' => by
    have ih3 := normParts_append_congr y hy t t' h pre'
    have ih2 := normParts_append_congr y hy t t' h (d :: pre')
    have ih1 := normParts_append_congr y hy t t' h (m :: d :: pre')
    simp only [List.cons_append, List.nil_append] at ih1 ih2 ih3 ⊢
    by_cases hp : isYear p = true
    · by_cases hm : isMonthDay m = true
      · by_cases hd : isMonthDay d = true
        · rw [normParts_year_month_day p m d _ hp hm hd,
            normParts_year_month_day p m d _ hp hm hd, ih3]
        · have hd' : isMonthDay d = false := by simpa using hd
          rw [normParts_year_month_noday p m d _ hp hm hd',
            normParts_year_month_noday p m d _ hp hm hd', ih2]
      · have hm' : isMonthDay m = false := by simpa using hm
        rw [normParts_year_nomonth p m _ hp hm',
          normParts_year_nomonth p m _ hp hm', ih1]
    · have hp' : isYear p = false := by simpa using hp
      rw [normParts_noyear p _ hp', normParts_noyear p _ hp', ih1]

/-- C4: `normalizeUrl` folds away a day-of-month segment.  Two URLs whose
lowercased, slash-stripped segment lists agree except that the first has
a one-or-two-digit day segment between the month and the final non-date
segment normalize to the same string. -/
theorem normalizeUrl_fold_day (u1 u2 : String) (pre : List (List Char))
    (y m d s : List Char)
    (h1 : splitSlash (stripTrailSlash (u1.data.map Char.toLower)) = pre ++ [y, m, d, s])
    (h2 : splitSlash (stripTrailSlash (u2.data.map Char.toLower)) = pre ++ [y, m, s])
    (hy : isYear y = true) (hm : isMonthDay m = true) (hd : isMonthDay d = true)
    (hs : isMonthDay s = false) :
    normalizeUrl u1 = normalizeUrl u2 := by
  unfold normalizeUrl
  rw [h1, h2]
  have key : normParts (y :: [m, d, s]) = normParts (y :: [m, s]) := by
    rw [normParts_year_month_day y m d [s] hy hm hd,
      normParts_year_month_noday y m s [] hy hm hs]
  have := normParts_append_congr y hy [m, d, s] [m, s] key pre
  simp only [List.cons_append, List.nil_append] at this ⊢
  rw [this]

/-- Witness for C4 at the spec's example URLs. -/
theorem normalizeUrl_fold_day_witness :
    normalizeUrl "https://x.com/2024/12/03/post" =
      normalizeUrl "https://x.com/2024/12/post" :=
  normalizeUrl_fold_day "https://x.com/2024/12/03/post" "https://x.com/2024/12/post"
    ["https:".data, "".data, "x.com".data] "2024".data "12".data "03".data "post".data
    (by decide) (by decide) (by decide) (by decide) (by decide) (by decide)

/-! ### Properties of the CSV importer -/

theorem lookup_cons_true {q : String} {b : ViewRec} {es : List (String × ViewRec)}
    {a : String} (h : (a == q) = true) : ((q, b) :: es).lookup a = some b := by
  rw [List.lookup_cons, h]

theorem lookup_cons_false {q : String} {b : ViewRec} {es : List (String × ViewRec)}
    {a : String} (h : (a == q) = false) : ((q, b) :: es).lookup a = es.lookup a := by
  rw [List.lookup_cons, h]

theorem objInsert_cons_ne (p : String × ViewRec) (m : List (String × ViewRec))
    (k : String) (v : ViewRec) (hp : (p.1 == k) = false) :
    objInsert (p :: m) k v = p :: objInsert m k v := by
  have hp' : ¬ p.1 = k := by simpa using hp
  unfold objInsert
  cases hany : m.any (fun q => q.1 == k) <;>
    simp [List.any_cons, hp, hany] <;>
    intro hpe <;> exact absurd hpe hp'

theorem objInsert_cons_self (p : String × ViewRec) (m : List (String × ViewRec))
    (k : String) (v : ViewRec) (hp : (p.1 == k) = true)
    (hm : ∀ q ∈ m, (q.1 == k) = false) :
    objInsert (p :: m) k v = (k, v) :: m := by
  have hpe : p.1 = k := by simpa using hp
  have hmap : ∀ (f : String × ViewRec → String × ViewRec),
      (∀ q ∈ m, f q = q) → m.map f = m := by
    intro f hf
    conv_rhs => rw [← List.map_id m]
    exact List.map_congr_left hf
  unfold objInsert
  simp only [List.any_cons, hp, Bool.true_or, if_true, List.map_cons, hp]
  congr 1
  apply hmap
  intro q hq
  rw [if_neg (by simp [hm q hq])]

theorem lookup_objInsert (k : String) (v : ViewRec) :
    ∀ (m : List (String × ViewRec)) (k' : String),
    (m.map Prod.fst).Nodup →
    (objInsert m k v).lookup k' = if k' = k then some v else m.lookup k'
  | [], k', _ => by
    have h0 : objInsert [] k v = [(k, v)] := rfl
    rw [h0]
    by_cases h : k' = k
    · rw [if_pos h, lookup_cons_true (beq_iff_eq.mpr h)]
    · rw [if_neg h, lookup_cons_false (beq_eq_false_iff_ne.mpr h), List.lookup_nil]
  | p :: m, k', hnd => by
    obtain ⟨p1, p2⟩ := p
    have hnd' : (m.map Prod.fst).Nodup := (List.nodup_cons.mp hnd).2
    have hpk : p1 ∉ m.map Prod.fst := (List.nodup_cons.mp hnd).1
    by_cases hp : p1 = k
    · have hm : ∀ q ∈ m, (q.1 == k) = false := by
        intro q hq
        rw [beq_eq_false_iff_ne]
        intro hqk
        exact hpk (by rw [hp, ← hqk]; exact List.mem_map_of_mem Prod.fst hq)
      rw [objInsert_cons_self (p1, p2) m k v (beq_iff_eq.mpr hp) hm]
      by_cases h : k' = k
      · rw [if_pos h, lookup_cons_true (beq_iff_eq.mpr h)]
      · rw [if_neg h, lookup_cons_false (beq_eq_false_iff_ne.mpr h),
          lookup_cons_false (beq_eq_false_iff_ne.mpr (fun hh => h (by rw [hh, hp])))]
    · rw [objInsert_cons_ne (p1, p2) m k v (beq_eq_false_iff_ne.mpr hp)]
      by_cases h : k' = p1
      · have hk : k' ≠ k := fun hh => hp (by rw [← h, hh])
        rw [if_neg hk, lookup_cons_true (beq_iff_eq.mpr h),
          lookup_cons_true (beq_iff_eq.mpr h)]
      · have ih := lookup_objInsert k v m k' hnd'
        rw [lookup_cons_false (beq_eq_false_iff_ne.mpr h), ih]
        by_cases hk : k' = k
        · rw [if_pos hk, if_pos hk]
        · rw [if_neg hk, if_neg hk,
            lookup_cons_false (beq_eq_false_iff_ne.mpr h)]

theorem keys_objInsert (m : List (String × ViewRec)) (k : String) (v : ViewRec) :
    (objInsert m k v).map Prod.fst =
      if m.any (fun p => p.1 == k) then m.map Prod.fst
      else m.map Prod.fst ++ [k] := by
  unfold objInsert
  cases hany : m.any (fun p => p.1 == k) <;> simp [hany]
  intro a b _
  by_cases h : a = k <;> simp [h]

theorem nodup_keys_objInsert (m : List (String × ViewRec)) (k : String)
    (v : ViewRec) (hm : (m.map Prod.fst).Nodup) :
    ((objInsert m k v).map Prod.fst).Nodup := by
  rw [keys_objInsert]
  cases hany : m.any (fun p => p.1 == k) with
  | false =>
    rw [if_neg (by simp [hany])]
    have hk : k ∉ m.map Prod.fst := by
      intro hmem
      obtain ⟨p, hp, hpk⟩ := List.mem_map.mp hmem
      have h2 := List.any_eq_false.mp hany p hp
      simp [hpk] at h2
    rw [List.nodup_append]
    refine ⟨hm, List.nodup_singleton k, ?_⟩
    intro a ha hb
    rw [List.mem_singleton] at hb
    exact hk (hb ▸ ha)
  | true =>
    rw [if_pos (by simp [hany])]
    exact hm

/-- The row loop of `csvToJson` keeps the keys of the mapping without
duplicates, and its lookup at any key is the reference fold of
`lastStep`. -/
theorem csvFold_nodup_lookup :
    ∀ (records : List (List String)) (acc : CsvResult),
    (acc.data.map Prod.fst).Nodup →
    ((records.foldl csvStep acc).data.map Prod.fst).Nodup ∧
    ∀ k, (records.foldl csvStep acc).data.lookup k =
      records.foldl (lastStep k) (acc.data.lookup k)
  | [], _, h => ⟨h, fun _ => rfl⟩
  | r :: records, acc, h => by
    have hstep : ((csvStep acc r).data.map Prod.fst).Nodup := by
      rcases r with _ | ⟨t, _ | ⟨v, _ | ⟨u, rest⟩⟩⟩
      · exact h
      · exact h
      · exact h
      · exact nodup_keys_objInsert acc.data (cleanUrl u) ⟨stripQuotes t, jsParseInt v⟩ h
    have hlast : ∀ k, (csvStep acc r).data.lookup k = lastStep k (acc.data.lookup k) r := by
      intro k
      rcases r with _ | ⟨t, _ | ⟨v, _ | ⟨u, rest⟩⟩⟩
      · rfl
      · rfl
      · rfl
      · show (objInsert acc.data (cleanUrl u) ⟨stripQuotes t, jsParseInt v⟩).lookup k =
          if cleanUrl u = k then some ⟨stripQuotes t, jsParseInt v⟩ else acc.data.lookup k
        rw [lookup_objInsert (cleanUrl u) ⟨stripQuotes t, jsParseInt v⟩ acc.data k h]
        by_cases hk : k = cleanUrl u
        · rw [if_pos hk, if_pos hk.symm]
        · rw [if_neg hk, if_neg (fun hh => hk hh.symm)]
    obtain ⟨h1, h2⟩ := csvFold_nodup_lookup records (csvStep acc r) hstep
    refine ⟨h1, fun k => ?_⟩
    rw [List.foldl_cons, List.foldl_cons, h2 k, hlast k]

/-- C8: when several rows clean to the same URL key, the mapping entry
for that key is the record of the last such row: for every row list and
key, the lookup in the `csvToJson` mapping equals the record built from
the final row with that cleaned URL. -/
theorem csvToJson_last_wins (records : List (List String)) (k : String) :
    (csvToJson records).data.lookup k = lastRowFor records k := by
  have h := (csvFold_nodup_lookup records ⟨[], 0, 0⟩ (by simp)).2 k
  unfold csvToJson lastRowFor
  simpa using h

theorem csvFold_counts (records : List (List String)) :
    ∀ (acc : CsvResult),
    (records.foldl csvStep acc).processed =
      acc.processed + records.countP (fun r => 3 ≤ r.length) ∧
    (records.foldl csvStep acc).skipped =
      acc.skipped + records.countP (fun r => r.length < 3) := by
  induction records with
  | nil => intro acc; simp
  | cons r records ih =>
    intro acc
    obtain ⟨ih1, ih2⟩ := ih (csvStep acc r)
    rw [List.foldl_cons, List.countP_cons, List.countP_cons]
    have hlong : ∀ (rest : List String), ¬ ((rest.length + 3) < 3) := by
      intro rest
      omega
    constructor
    · rw [ih1]
      rcases r with _ | ⟨t, _ | ⟨v, _ | ⟨u, rest⟩⟩⟩ <;>
        simp [csvStep, Nat.le_add_left] <;> omega
    · rw [ih2]
      rcases r with _ | ⟨t, _ | ⟨v, _ | ⟨u, rest⟩⟩⟩ <;>
        simp [csvStep, hlong] <;> omega

theorem foldl_lastStep_isSome (k : String) :
    ∀ (records : List (List String)) (acc : Option ViewRec),
    ((records.foldl (lastStep k) acc).isSome = true ↔
      (∃ r ∈ records, ∃ t v u rest, r = t :: v :: u :: rest ∧ cleanUrl u = k) ∨
        acc.isSome = true)
  | [], acc => by simp
  | r :: records, acc => by
    have ih := foldl_lastStep_isSome k records (lastStep k acc r)
    rw [List.foldl_cons, ih]
    have hstep : (lastStep k acc r).isSome = true ↔
        (∃ t v u rest, r = t :: v :: u :: rest ∧ cleanUrl u = k) ∨
          acc.isSome = true := by
      rcases r with _ | ⟨t, _ | ⟨v, _ | ⟨u, rest⟩⟩⟩
      · simp [lastStep]
      · simp [lastStep]
      · simp [lastStep]
      · by_cases hu : cleanUrl u = k
        · simp only [lastStep, if_pos hu, Option.isSome_some]
          constructor
          · intro _
            exact Or.inl ⟨t, v, u, rest, rfl, hu⟩
          · intro _
            trivial
        · simp only [lastStep, if_neg hu]
          constructor
          · intro h
            exact Or.inr h
          · rintro (⟨t', v', u', rest', heq, hk'⟩ | h)
            · cases heq
              exact absurd hk' hu
            · exact h
    rw [hstep]
    simp only [List.mem_cons]
    constructor
    · rintro (⟨r', hr', hex⟩ | (hex | hacc))
      · exact Or.inl ⟨r', Or.inr hr', hex⟩
      · exact Or.inl ⟨r, Or.inl rfl, hex⟩
      · exact Or.inr hacc
    · rintro (⟨r', hr' | hr', hex⟩ | hacc)
      · exact Or.inr (Or.inl (hr' ▸ hex))
      · exact Or.inl ⟨r', hr', hex⟩
      · exact Or.inr (Or.inr hacc)

/-- C9: `csvToJson` skips a row exactly when it has fewer than three
fields: the processed counter counts the rows with at least three fields,
the skipped counter counts the rest, and the mapping has an entry at a
key exactly when some row with at least three fields cleans to it. -/
theorem csvToJson_skip_iff (records : List (List String)) :
    (csvToJson records).processed = records.countP (fun r => 3 ≤ r.length) ∧
    (csvToJson records).skipped = records.countP (fun r => r.length < 3) ∧
    ∀ k, (((csvToJson records).data.lookup k).isSome = true ↔
      ∃ r ∈ records, ∃ t v u rest, r = t :: v :: u :: rest ∧ cleanUrl u = k) := by
  refine ⟨?_, ?_, ?_⟩
  · have h := (csvFold_counts records ⟨[], 0, 0⟩).1
    unfold csvToJson
    simpa using h
  · have h := (csvFold_counts records ⟨[], 0, 0⟩).2
    unfold csvToJson
    simpa using h
  · intro k
    have h := (csvFold_nodup_lookup records ⟨[], 0, 0⟩ (by simp)).2 k
    have h2 := foldl_lastStep_isSome k records none
    unfold csvToJson
    rw [show (({ data := [], processed := 0, skipped := 0 } : CsvResult)).data.lookup k = none from rfl] at h
    rw [h]
    simpa using h2

/-- Witness for C9 on a two-row input, one well-formed row and one row
with a single field. -/
theorem csvToJson_skip_iff_witness :
    (csvToJson [["Title A", "42", "https://x.com/a/"], ["short"]]).processed = 1 ∧
    (csvToJson [["Title A", "42", "https://x.com/a/"], ["short"]]).skipped = 1 := by
  have h := csvToJson_skip_iff [["Title A", "42", "https://x.com/a/"], ["short"]]
  refine ⟨?_, ?_⟩
  · rw [h.1]
    decide
  · rw [h.2.1]
    decide

/-- C2: the claim fails on the code, which is the bug.  JS `parseInt`
returns `NaN` instead of throwing on a non-numeric views value, so the
malformed row is stored (with `NaN` views) and counted as processed: the
spec's two-row CSV yields two mapping entries, processed 2 and skipped 0,
not one entry, processed 1 and skipped 1. -/
theorem csvToJson_nan_row_processed :
    csvToJson [["Title A", "42", "https://x.com/a/"],
      ["Title B", "not-a-number", "https://x.com/b"]] =
      ⟨[("https://x.com/a", ⟨"Title A", .int 42⟩),
        ("https://x.com/b", ⟨"Title B", .nan⟩)], 2, 0⟩ := rfl

/-! ### Properties of the fetcher -/

theorem fetchFold_eq (vd : List (String × ViewRec))
    (api : String → Except String (List ApiPost)) :
    ∀ (pts : List String) (acc : List ContentEntry),
    pts.foldl (fun allPosts postType =>
      match api postType with
      | .ok posts => allPosts ++ posts.map (mkEntry vd postType)
      | .error _ => allPosts) acc =
    acc ++ (pts.map (fun pt => match api pt with
      | .ok posts => posts.map (mkEntry vd pt)
      | .error _ => [])).flatten
  | [], acc => by simp
  | pt :: pts, acc => by
    have ih := fetchFold_eq vd api pts
    rw [List.foldl_cons, List.map_cons, List.flatten_cons]
    cases hapi : api pt with
    | ok posts =>
      simp only [hapi]
      rw [ih (acc ++ posts.map (mkEntry vd pt)), List.append_assoc]
    | error e =>
      simp only [hapi]
      rw [ih acc, List.nil_append]

/-- `fetchWordPressPosts` is the concatenation, category by category, of
the entries of the successful responses (a failed category contributes
the empty list). -/
theorem fetch_eq_flatten (pts : List String) (vd : List (String × ViewRec))
    (api : String → Except String (List ApiPost)) :
    fetchWordPressPosts pts vd api =
      (pts.map (fun pt => match api pt with
        | .ok posts => posts.map (mkEntry vd pt)
        | .error _ => [])).flatten := by
  unfold fetchWordPressPosts
  rw [fetchFold_eq vd api pts [], List.nil_append]

/-- C3: every entry produced by `fetchWordPressPosts` carries either the
views copied verbatim from a record of the mapping whose normalized key
equals the entry's normalized URL, or views 0 when no key of the mapping
matches; and no entry is dropped: the result has exactly one entry per
post of each successful response. -/
theorem fetchWordPressPosts_views_join (pts : List String)
    (vd : List (String × ViewRec)) (api : String → Except String (List ApiPost)) :
    (∀ e ∈ fetchWordPressPosts pts vd api,
      (∃ p ∈ vd, normalizeUrl p.1 = normalizeUrl e.url ∧ e.views = p.2.views) ∨
      ((∀ p ∈ vd, normalizeUrl p.1 ≠ normalizeUrl e.url) ∧ e.views = .int 0)) ∧
    (fetchWordPressPosts pts vd api).length =
      (pts.map (fun pt => match api pt with
        | .ok posts => posts.length
        | .error _ => 0)).sum := by
  constructor
  · intro e he
    rw [fetch_eq_flatten, List.mem_flatten] at he
    obtain ⟨l, hl, hel⟩ := he
    rw [List.mem_map] at hl
    obtain ⟨pt, hpt, rfl⟩ := hl
    cases hapi : api pt with
    | error err =>
      rw [hapi] at hel
      simp at hel
    | ok posts =>
      rw [hapi] at hel
      rw [List.mem_map] at hel
      obtain ⟨post, hpost, rfl⟩ := hel
      cases hf : vd.find? (fun p => normalizeUrl p.1 == normalizeUrl post.link) with
      | some p =>
        left
        refine ⟨p, List.mem_of_find?_eq_some hf, ?_, ?_⟩
        · have hpred := List.find?_some hf
          simpa [mkEntry] using hpred
        · simp [mkEntry, hf]
      | none =>
        right
        constructor
        · intro p hp
          have hpred := List.find?_eq_none.mp hf p hp
          simpa [mkEntry] using hpred
        · simp [mkEntry, hf]
  · rw [fetch_eq_flatten, List.length_flatten, List.map_map]
    congr 1
    apply List.map_congr_left
    intro pt _
    cases hapi : api pt <;> simp [hapi, Function.comp]

/-- Witness for C3 at the spec's join scenario: the single fetched entry
is matched through the normalizer against the day-less CSV key. -/
theorem fetchWordPressPosts_views_join_witness :
    (∃ p ∈ wVd, normalizeUrl p.1 = normalizeUrl wEntry.url ∧
      wEntry.views = p.2.views) ∨
    ((∀ p ∈ wVd, normalizeUrl p.1 ≠ normalizeUrl wEntry.url) ∧
      wEntry.views = .int 0) :=
  (fetchWordPressPosts_views_join ["posts"] wVd wApi).1 wEntry (by decide)

/-- C6: a fetch failure for one category contributes zero entries and
does not disturb the other categories: deleting a failing category from
the category list leaves the result unchanged. -/
theorem fetchWordPressPosts_failure_isolation (pts1 pts2 : List String)
    (pt : String) (vd : List (String × ViewRec))
    (api : String → Except String (List ApiPost)) (err : String)
    (h : api pt = .error err) :
    fetchWordPressPosts (pts1 ++ pt :: pts2) vd api =
      fetchWordPressPosts (pts1 ++ pts2) vd api := by
  rw [fetch_eq_flatten, fetch_eq_flatten, List.map_append, List.map_append,
    List.map_cons, h, List.flatten_append, List.flatten_append, List.flatten_cons]
  simp

/-- Witness for C6: dropping the failing category of the oracle `wApi`
leaves the fetched entries unchanged. -/
theorem fetchWordPressPosts_failure_isolation_witness :
    fetchWordPressPosts ["posts", "videos"] wVd wApi =
      fetchWordPressPosts ["posts"] wVd wApi :=
  fetchWordPressPosts_failure_isolation ["posts"] [] "videos" wVd wApi
    "network error" rfl

/-! ### Properties of the renderer and the filename -/

set_option maxRecDepth 8192 in
/-- C5: the renderer lists the entries in ascending publication-date
order with ties kept in their original relative order: with input dates
2024-11-05, 2024-10-10, 2024-11-05 the 2024-10-10 entry is rendered
first and the two tied entries keep their original order, both in the
rendered rows and in the sorted array. -/
theorem generateMarkdownOutput_sort_stable :
    generateMarkdownOutput [cEntryA, cEntryB, cEntryC] "2024-10-01" =
      ("# Dev Blog News\n## Posts Published After 2024-10-01\n\n| Date | Title | Author | Type | Views | Post ID |\n|------|-------|--------|------|-------|----------|\n| 2024-10-10 | [Beta](https://x.com/b) | Bob | snippets | 7 | 2 |\n| 2024-11-05 | [Alpha](https://x.com/a) | Ann | posts | 5 | 1 |\n| 2024-11-05 | [Gamma](https://x.com/c) | Cal | posts | NaN | 3 |",
       [cEntryB, cEntryA, cEntryC]) := by decide

/-- C10: the renderer sorts the caller's array in place.  The array state
after the call is a permutation of the input in ascending
publication-date order, and it equals the input exactly when the input
was already sorted, so an unsorted input is mutated. -/
theorem generateMarkdownOutput_sorts_in_place (posts : List ContentEntry)
    (d : String) :
    ((generateMarkdownOutput posts d).2).Perm posts ∧
    List.Sorted entryLe (generateMarkdownOutput posts d).2 ∧
    ((generateMarkdownOutput posts d).2 = posts ↔ List.Sorted entryLe posts) := by
  have h2 : (generateMarkdownOutput posts d).2 = List.insertionSort entryLe posts := rfl
  refine ⟨?_, ?_, ?_⟩
  · rw [h2]
    exact List.perm_insertionSort entryLe posts
  · rw [h2]
    exact List.sorted_insertionSort entryLe posts
  · rw [h2]
    constructor
    · intro h
      rw [← h]
      exact List.sorted_insertionSort entryLe posts
    · exact List.Sorted.insertionSort_eq

/-- Witness for C10 on a concrete unsorted two-entry input. -/
theorem generateMarkdownOutput_sorts_in_place_witness :
    ((generateMarkdownOutput [cEntryA, cEntryB] "x").2).Perm [cEntryA, cEntryB] :=
  (generateMarkdownOutput_sorts_in_place [cEntryA, cEntryB] "x").1

/-- C7: the report filename is the date argument with every character
other than ASCII letters, digits, hyphen and underscore stripped, between
the fixed prefix and the `.md` extension, with `all` in place of an empty
date argument; in particular the date argument with slashes and
exclamation marks sanitizes as the spec states, and every character of
the result is an allowed character or the extension dot. -/
theorem reportFilename_sanitized :
    reportFilename "2024/10/01!!" = "devblognews-20241001.md" ∧
    reportFilename "" = "devblognews-all.md" ∧
    ∀ d : String, (reportFilename d).data.all
      (fun c => filenameKeep c || c == '.') = true := by
  refine ⟨rfl, rfl, ?_⟩
  intro d
  rw [List.all_eq_true]
  intro c hc
  have hdata : (reportFilename d).data = (safeFilename d).data ++ ".md".data := by
    unfold reportFilename
    rw [String.data_append]
  rw [hdata, List.mem_append] at hc
  rcases hc with hc | hc
  · have hkeep := (List.mem_filter.mp hc).2
    simp [hkeep]
  · have hmd : (".md").data = ['.', 'm', 'd'] := rfl
    rw [hmd] at hc
    simp only [List.mem_cons, List.not_mem_nil, or_false] at hc
    rcases hc with rfl | rfl | rfl <;> decide

end DevBlog
